import Mathlib

/-!
Verification development for the `feecalc` rule-based fee engine.

The Go sources are shallowly embedded:
* `src/types.go`         → `FeeItem`, `LogEntry`, `Context`, `RuleResult`,
                           `FeeEngine`, `ExecuteResult`
* `src/src/expression.go` → `newFeeItem`, `toDecimal`, `preprocessExpression`
                           (including a faithful model of the Go regexp
                           used there), `extractExpressionStrings`,
                           `extractFeeItems`, `executeExpression`
* `src/fee_engine.go`    → `ExecuteN`, `Execute`, `summarizeFeeItems`,
                           `New`, `AddRule`, `EnableLog`

The external expression-language evaluator (`expr.Compile` / `expr.Run` of
github.com/expr-lang/expr) and the arbitrary-precision decimal library
(shopspring/decimal) are external capabilities.  The evaluator is modelled
as an oracle parameter `RunOracle`; decimal values are modelled by `ℚ`
(shopspring decimals are rationals of the form c * 10 ^ e with exact
addition, which `ℚ` represents faithfully), and `decimal.NewFromString`
is modelled by an explicit parser of decimal literals.  Go's `float64` /
`float32` scalars are carried as the rational value denoted by their
shortest decimal representation, so `decimal.NewFromFloat` is the identity
on that representation.
-/

/-- A monetary effect: `FeeItem` of `src/types.go` (amount, currency). -/
structure FeeItem where
  amount : ℚ
  currency : String
deriving DecidableEq, Repr

/-- A dynamically typed Go scalar / value (`interface{}`) as it can occur in
the engine's variable environment or as an expression result.  Machine
integers are carried as unbounded `Int` / `Nat`; a constructor's argument is
the mathematical value of the machine word (for unsigned kinds a `Nat`
below `2 ^ width`). -/
inductive GoValue where
  | vNil
  | vBool (b : Bool)
  | vInt (n : Int)
  | vInt8 (n : Int)
  | vInt16 (n : Int)
  | vInt32 (n : Int)
  | vInt64 (n : Int)
  | vUint (n : Nat)
  | vUint8 (n : Nat)
  | vUint16 (n : Nat)
  | vUint32 (n : Nat)
  | vUint64 (n : Nat)
  | vFloat64 (q : ℚ)
  | vFloat32 (q : ℚ)
  | vString (s : String)
  | vDecimal (d : ℚ)
  | vFeeItem (fi : FeeItem)
  | vArr (xs : List GoValue)
  | vStrArr (xs : List String)

/-- Variable environment: Go `map[string]interface{}`, modelled as an
association list with in-place canonical update (`setVar`). -/
abbrev VarMap := List (String × GoValue)

/-- `Context.SetVar` of `src/fee_engine.go`: store a value under a key.
Association-list model of a Go map write: overwrite in place, else append. -/
def setVar : VarMap → String → GoValue → VarMap
  | [], k, v => [(k, v)]
  | (k', v') :: rest, k, v =>
    if k' = k then (k', v) :: rest else (k', v') :: setVar rest k v

/-- `Context.GetVar` of `src/fee_engine.go`: map lookup. -/
def getVar (m : VarMap) (k : String) : Option GoValue :=
  match m with
  | [] => none
  | (k', v) :: rest => if k' = k then some v else getVar rest k

/-! ## Numeric coercion (`toDecimal`, `src/src/expression.go` lines 101-139) -/

/-- Go's conversion `int64(v)` applied to a 64-bit unsigned value `n`
(`n < 2 ^ 64`): two's-complement reinterpretation, which wraps for
`n ≥ 2 ^ 63`. -/
def int64OfUint64 (n : Nat) : Int :=
  if n < 2 ^ 63 then (n : Int) else (n : Int) - 2 ^ 64

def isDigitChar (c : Char) : Bool := '0' ≤ c && c ≤ '9'

def digitsToNat (cs : List Char) : Nat :=
  cs.foldl (fun a c => a * 10 + (c.toNat - '0'.toNat)) 0

/-- Parse a base-10 big-integer string with optional leading sign
(model of `math/big.Int.SetString` as used by shopspring's parser). -/
def parseBigInt : List Char → Option Int
  | '+' :: rest =>
    if rest ≠ [] ∧ rest.all isDigitChar then some (digitsToNat rest) else none
  | '-' :: rest =>
    if rest ≠ [] ∧ rest.all isDigitChar then some (-(digitsToNat rest : Int)) else none
  | cs =>
    if cs ≠ [] ∧ cs.all isDigitChar then some (digitsToNat cs) else none

/-- Split a character list at the first `e`/`E` (exponent marker). -/
def splitAtExpMarker : List Char → List Char × Option (List Char)
  | [] => ([], none)
  | c :: rest =>
    if c = 'e' ∨ c = 'E' then ([], some rest)
    else
      let (m, e) := splitAtExpMarker rest
      (c :: m, e)

/-- Split a mantissa at its decimal point; `none` if more than one point. -/
def splitAtDot : List Char → Option (List Char × List Char)
  | [] => some ([], [])
  | '.' :: rest => if rest.contains '.' then none else some ([], rest)
  | c :: rest =>
    match splitAtDot rest with
    | none => none
    | some (a, b) => some (c :: a, b)

/-- Model of `decimal.NewFromString` (external capability, spec §1): a
decimal literal is an optional sign, digits with at most one decimal point,
and an optional `e`/`E` exponent; anything else fails. -/
def parseDecimalString (s : String) : Option ℚ :=
  let (mant, expPart) := splitAtExpMarker s.toList
  let expVal : Option Int :=
    match expPart with
    | none => some 0
    | some ecs => parseBigInt ecs
  match expVal with
  | none => none
  | some e =>
    match splitAtDot mant with
    | none => none
    | some (intPart, fracPart) =>
      match parseBigInt (intPart ++ fracPart) with
      | none => none
      | some m => some ((m : ℚ) * (10 : ℚ) ^ (e - (fracPart.length : Int)))

/-- `toDecimal` of `src/src/expression.go`: convert any scalar to the
canonical decimal.  The `uint`/`uint64` cases go through Go's `int64(val)`
conversion exactly as the source does. -/
def toDecimal : GoValue → ℚ
  | .vDecimal d => d
  | .vFloat64 q => q
  | .vFloat32 q => q
  | .vInt n => (n : ℚ)
  | .vInt8 n => (n : ℚ)
  | .vInt16 n => (n : ℚ)
  | .vInt32 n => (n : ℚ)
  | .vInt64 n => (n : ℚ)
  | .vUint n => (int64OfUint64 n : ℚ)
  | .vUint8 n => (n : ℚ)
  | .vUint16 n => (n : ℚ)
  | .vUint32 n => (n : ℚ)
  | .vUint64 n => (int64OfUint64 n : ℚ)
  | .vString s => (parseDecimalString s).getD 0
  | _ => 0

/-! ## `newFeeItem` (`src/src/expression.go` lines 14-38) -/

/-- `newFeeItem`: the `$`/`emit` constructor.  Its type switch handles only
`decimal.Decimal`, `float64`, `int`, `int64` and `string`; every other
kind falls to the `default` branch and becomes `decimal.Zero`. -/
def newFeeItem (amount : GoValue) (currency : String) : FeeItem :=
  let d : ℚ :=
    match amount with
    | .vDecimal d => d
    | .vFloat64 q => q
    | .vInt n => (n : ℚ)
    | .vInt64 n => (n : ℚ)
    | .vString s => (parseDecimalString s).getD 0
    | _ => 0
  ⟨d, currency⟩

/-- The scalar kinds `newFeeItem`'s type switch accepts. -/
def newFeeItemHandles : GoValue → Bool
  | .vDecimal _ => true
  | .vFloat64 _ => true
  | .vInt _ => true
  | .vInt64 _ => true
  | .vString _ => true
  | _ => false

/-! ## Rule preprocessor (`preprocessExpression`, lines 146-192)

The source matches each `;`-separated statement against the Go regexp
`\b([a-zA-Z_][a-zA-Z0-9_]*)\s*=\s*(.+)$` with `FindStringSubmatch`
(leftmost match).  The functions below model that regexp exactly:
a match may start at any position preceded by a word boundary, the
identifier and whitespace runs are greedy (greediness is without loss
here, see the comments), `.` does not match a newline and `$` anchors at
the end of the text. -/

def isWordChar (c : Char) : Bool := c.isAlpha || c.isDigit || c = '_'

def isIdentStartChar (c : Char) : Bool := c.isAlpha || c = '_'

/-- Go regexp `\s`: `[\t\n\f\r ]`. -/
def isSpaceChar (c : Char) : Bool :=
  c = ' ' || c = '\t' || c = '\n' || c = '\x0c' || c = '\r'

/-- `unicode.IsSpace` as used by Go's `strings.TrimSpace` (the Latin-1
range: tab, newline, vertical tab, form feed, carriage return, space,
next line, no-break space). -/
def goIsSpace (c : Char) : Bool :=
  c = ' ' || c = '\t' || c = '\n' || c = '\x0b' || c = '\x0c' || c = '\r' ||
  c = '\x85' || c = '\xa0'

/-- `strings.TrimSpace` on a character list. -/
def trimChars (cs : List Char) : List Char :=
  ((cs.dropWhile goIsSpace).reverse.dropWhile goIsSpace).reverse

/-- `strings.TrimSpace`. -/
def goTrim (s : String) : String := String.mk (trimChars s.toList)

/-- `strings.Split` on the single-character separator `;`. -/
def splitOnSemi : List Char → List (List Char)
  | [] => [[]]
  | c :: rest =>
    let r := splitOnSemi rest
    if c = ';' then [] :: r
    else
      match r with
      | [] => [[c]]
      | a :: as => (c :: a) :: as

def startsWithChars : List Char → List Char → Bool
  | _, [] => true
  | [], _ :: _ => false
  | c :: cs, p :: ps => c = p && startsWithChars cs ps

/-- One step of `strings.Split` with a multi-character separator: the text
before the first occurrence of `sep`, and the remainder after it if found. -/
def splitSepStep (sep : List Char) : List Char → List Char × Option (List Char)
  | [] => ([], none)
  | c :: rest =>
    if startsWithChars (c :: rest) sep then ([], some (List.drop sep.length (c :: rest)))
    else
      let (a, b) := splitSepStep sep rest
      (c :: a, b)

/-- `strings.Split` with a non-empty separator, fuelled for structural
recursion; `fuel ≥ cs.length` always suffices. -/
def splitSepFuel (sep : List Char) : Nat → List Char → List (List Char)
  | 0, cs => [cs]
  | fuel + 1, cs =>
    match splitSepStep sep cs with
    | (a, none) => [a]
    | (a, some rest) => a :: splitSepFuel sep fuel rest

/-- `strings.Split s sep` for a non-empty separator. -/
def splitOnSep (sep : List Char) (cs : List Char) : List (List Char) :=
  splitSepFuel sep cs.length cs

/-- `strings.Join` with the given separator. -/
def joinSep (sep : List Char) : List (List Char) → List Char
  | [] => []
  | [a] => a
  | a :: as => a ++ sep ++ joinSep sep as

/-- Try to match `([a-zA-Z_][a-zA-Z0-9_]*)\s*=\s*(.+)$` at the head of
`cs`, returning the two capture groups.  The identifier run and the first
`\s*` are matched greedily; shortening either cannot create a match, so
greedy is exact.  For the trailing `\s*(.+)$`, leftmost-first semantics
try the longest whitespace run first and backtrack one character at a
time; `.` never matches `'\n'`, which the case analysis below reproduces. -/
def matchAssignTail (cs : List Char) : Option (List Char × List Char) :=
  match cs with
  | [] => none
  | c :: rest =>
    if isIdentStartChar c then
      let identRest := rest.takeWhile isWordChar
      let afterIdent := rest.dropWhile isWordChar
      let afterWs := afterIdent.dropWhile isSpaceChar
      match afterWs with
      | '=' :: t =>
        let r0 := t.dropWhile isSpaceChar
        if r0 ≠ [] then
          if r0.contains '\n' then none else some (c :: identRest, r0)
        else
          match t.getLast? with
          | some lc => if lc = '\n' then none else some (c :: identRest, [lc])
          | none => none
      | _ => none
    else none

/-- Scan for the leftmost start position (a `\b` word boundary followed by
an identifier-start character) where `matchAssignTail` succeeds: the model
of `FindStringSubmatch`.  `prevWord` records whether the previous character
was a word character. -/
def findAssignMatch : Bool → List Char → Option (List Char × List Char)
  | _, [] => none
  | prevWord, c :: rest =>
    if ¬prevWord ∧ isIdentStartChar c then
      match matchAssignTail (c :: rest) with
      | some r => some r
      | none => findAssignMatch (isWordChar c) rest
    else findAssignMatch (isWordChar c) rest

/-- Rewrite one trimmed statement candidate: if the assignment regexp
matches, produce the canonical `Set("name", value)` call (the value is the
trimmed second capture group), otherwise keep the candidate unchanged
(lines 166-174 of `src/src/expression.go`). -/
def rewritePart (part : List Char) : List Char :=
  match findAssignMatch false part with
  | some (ident, rem) =>
    ['S', 'e', 't', '(', '\"'] ++ ident ++ ['\"', ',', ' '] ++ trimChars rem ++ [')']
  | none => part

/-- `preprocessExpression`: split on `;`, trim, drop empties, rewrite
assignment-shaped candidates, and re-join multiple statements with `"; "`. -/
def preprocessExpression (exprStr : String) : String :=
  if exprStr = "" then exprStr
  else
    let parts := ((splitOnSemi exprStr.toList).map trimChars).filter (fun p => p ≠ [])
    let processedParts := parts.map rewritePart
    match processedParts with
    | [] => exprStr
    | [p] => String.mk p
    | ps => String.mk (joinSep [';', ' '] ps)

/-! ## Rule evaluator (`executeExpression` and helpers, lines 40-98, 199-312)

The expression-language compiler/evaluator (`expr.Compile` / `expr.Run`)
is an external capability (spec §1).  It is modelled by an oracle
`RunOracle`.  The environment handed to `expr.Run` contains the context
variables together with the builtin closures `$`, `Set`, `Add`, `Sub`,
`Mul`, `Div`, `Neg`; the closures share the mutable `env` map and the
`contextUpdates` map, so one oracle call may read the environment, return
a value, and update both maps.  `EvalState` carries those two maps. -/

/-- The mutable state shared by the builtin closures during one
`executeExpression` call: the `env` map and the `contextUpdates` map. -/
structure EvalState where
  env : VarMap
  updates : VarMap

/-- Oracle modelling `expr.Compile` + `expr.Run` on a non-empty expression
string: it may fail (compile or runtime error), or return the output value
together with the evaluation state as mutated by the builtin closures. -/
abbrev RunOracle := String → EvalState → Except String (GoValue × EvalState)

/-- `executeSingleExpression` (lines 41-57): the empty string evaluates to
`nil` without touching the oracle; otherwise compile and run. -/
def executeSingleExpression (runE : RunOracle) (exprStr : String)
    (st : EvalState) : Except String (GoValue × EvalState) :=
  if exprStr = "" then .ok (.vNil, st) else runE exprStr st

/-- String content of a value, when it is a string. -/
def stringOf : GoValue → Option String
  | .vString s => some s
  | _ => none

/-- FeeItem content of a value, when it is one. -/
def feeItemOf : GoValue → Option FeeItem
  | .vFeeItem fi => some fi
  | _ => none

/-- `extractExpressionStrings` (lines 60-78): a `[]string` is returned as
is; a non-empty `[]interface{}` whose elements are all strings yields those
strings; anything else yields `nil` (modelled as `[]`). -/
def extractExpressionStrings : GoValue → List String
  | .vStrArr xs => xs
  | .vArr xs =>
    if xs.length > 0 then
      if xs.all (fun x => (stringOf x).isSome) then xs.filterMap stringOf else []
    else []
  | _ => []

/-- `extractFeeItems` (lines 81-98): a bare `FeeItem` is appended; from a
`[]interface{}` every element that is a `FeeItem` is appended in order and
other elements are skipped; anything else contributes nothing. -/
def extractFeeItems : GoValue → List FeeItem
  | .vFeeItem fi => [fi]
  | .vArr xs => xs.filterMap feeItemOf
  | _ => []

/-- The loop of lines 286-293: evaluate each expression string in order
against the shared evaluation state, appending the fee items extracted
from each sub-output to the accumulator (`result.FeeItems`). -/
def subExprLoop (runE : RunOracle) (acc : List FeeItem) :
    List String → EvalState → Except String (List FeeItem × EvalState)
  | [], st => .ok (acc, st)
  | s :: rest, st =>
    match executeSingleExpression runE s st with
    | .error e => .error e
    | .ok (v, st1) => subExprLoop runE (acc ++ extractFeeItems v) rest st1

/-- Lines 281-297: classify the result expression's output value.  A
non-empty list of expression strings is evaluated sequentially; otherwise
a non-nil output has its fee items extracted directly. -/
def processOutput (runE : RunOracle) (output : GoValue) (st : EvalState) :
    Except String (List FeeItem × EvalState) :=
  let exprs := extractExpressionStrings output
  if exprs.length > 0 then subExprLoop runE [] exprs st
  else
    match output with
    | .vNil => .ok ([], st)
    | _ => .ok (extractFeeItems output, st)

/-- Lines 299-311: package fee items and pending variable updates into a
`RuleResult`; a rule with neither yields the sentinel `nil` result. -/
structure RuleResult where
  feeItems : List FeeItem
  updates : Option VarMap

def finishRule (fis : List FeeItem) (updates : VarMap) : Option RuleResult :=
  if fis.isEmpty && updates.isEmpty then none
  else some ⟨fis, if updates.isEmpty then none else some updates⟩

/-- The loop of lines 256-265: run every statement but the last purely for
its side effects (skipping blank parts). -/
def runLeadingParts (runE : RunOracle) :
    List String → EvalState → Except String EvalState
  | [], st => .ok st
  | p :: rest, st =>
    let part := goTrim p
    if part = "" then runLeadingParts runE rest st
    else
      match executeSingleExpression runE part st with
      | .error e => .error e
      | .ok (_, st1) => runLeadingParts runE rest st1

/-- `executeExpression` (lines 199-312): preprocess the rule text, run the
leading statements for effect, run the result expression, classify its
output and package the rule result.  The Go code tests
`strings.Contains(preprocessed, "; ")`, which holds exactly when the
split below has more than one part. -/
def executeExpression (runE : RunOracle) (exprStr : String) (vars : VarMap) :
    Except String (Option RuleResult) :=
  if exprStr = "" then .ok none
  else
    let preprocessed := preprocessExpression exprStr
    let st0 : EvalState := ⟨vars, []⟩
    let parts := (splitOnSep [';', ' '] preprocessed.toList).map String.mk
    let mainRun : Except String (GoValue × EvalState) :=
      if parts.length > 1 then
        match runLeadingParts runE parts.dropLast st0 with
        | .error e => .error e
        | .ok st1 => executeSingleExpression runE (goTrim (parts.getLastD "")) st1
      else executeSingleExpression runE preprocessed st0
    match mainRun with
    | .error e => .error e
    | .ok (output, st2) =>
      match processOutput runE output st2 with
      | .error e => .error e
      | .ok (fis, st3) => .ok (finishRule fis st3.updates)

/-! ## Execution context and engine (`src/types.go`, `src/fee_engine.go`) -/

/-- One execution-log entry (`Log` of `src/types.go`). -/
structure LogEntry where
  rule : String
  vars : VarMap
  feeItems : List FeeItem

/-- The shared execution context (`Context` of `src/types.go`).  The
`sync.RWMutex` only guards individual field accesses (spec §5) and has no
observable effect on the sequential semantics modelled here. -/
structure Context where
  vars : VarMap
  feeItems : List FeeItem
  logs : List LogEntry
  enableLog : Bool
  lastExecutedRule : Nat

/-- The engine (`FeeEngine` of `src/types.go`).  The field `initialVars`
is the constructor-time snapshot of the variable environment used by
`Reset`; see `Reset` for its provenance. -/
structure FeeEngine where
  ctx : Context
  rules : List String
  initialVars : VarMap

/-- A result snapshot (`ExecuteResult` of `src/types.go`).  The per-currency
summary is modelled as the total for each currency code, since the order of
the summary slice is Go-map iteration order and therefore unspecified
(spec §4.5).  The `Context` field of the Go struct is a reference to the
live context returned alongside the engine and is omitted here. -/
structure ExecuteResult where
  processedRules : Nat
  feeItems : List FeeItem
  summary : String → ℚ
  logs : List LogEntry

/-- `summarizeFeeItems` (lines 191-205 of `src/fee_engine.go`): one pass
over the effect list, adding each amount into the currency's running
decimal total (missing key = decimal zero). -/
def summarizeFeeItems (items : List FeeItem) : String → ℚ :=
  items.foldl
    (fun m item => fun c => if c = item.currency then m c + item.amount else m c)
    (fun _ => 0)

/-- `buildExecuteResult` (lines 166-183): snapshot the accumulated effects,
their per-currency summary and the logs, with this call's processed count. -/
def buildExecuteResult (ctx : Context) (processed : Nat) : ExecuteResult :=
  ⟨processed, ctx.feeItems, summarizeFeeItems ctx.feeItems, ctx.logs⟩

/-- The rule evaluator as seen by the engine (`e.executeRule`): the rule
text and the current variables in, an error or an optional rule result out. -/
abbrev EvalRule := String → VarMap → Except String (Option RuleResult)

/-- The engine's actual evaluator: `executeRule` (line 186) delegates to
`executeExpression` on the shared context's variables. -/
def engineEval (runE : RunOracle) : EvalRule :=
  fun rule vars => executeExpression runE rule vars

/-- The merge step of one loop iteration of `ExecuteN` (lines 123-159):
append the rule's fee items, apply its variable mutations via `SetVar`,
and, when logging is enabled, append a log entry carrying the rule text,
the variable snapshot after the merge, and this rule's own fee items. -/
def applyRuleResult (ctx : Context) (rule : String) (res : Option RuleResult) :
    Context :=
  let ruleFeeItems := match res with
    | some r => r.feeItems
    | none => []
  let ctx1 := { ctx with feeItems := ctx.feeItems ++ ruleFeeItems }
  let ctx2 := match res with
    | some r =>
      match r.updates with
      | some ups => { ctx1 with vars := ups.foldl (fun m kv => setVar m kv.1 kv.2) ctx1.vars }
      | none => ctx1
    | none => ctx1
  if ctx.enableLog then
    { ctx2 with logs := ctx2.logs ++ [⟨rule, ctx2.vars, ruleFeeItems⟩] }
  else ctx2

/-- The rule loop of `ExecuteN` (lines 117-159): execute the given rules in
order starting at absolute queue index `i`.  On an evaluation error the
loop stops, the error is wrapped with the failing rule's index, and the
context keeps the merges of the rules already completed. -/
def execRules (f : EvalRule) : Nat → List String → Context → Context × Option String
  | _, [], ctx => (ctx, none)
  | i, rule :: rest, ctx =>
    match f rule ctx.vars with
    | .error e =>
      (ctx, some ("error executing rule at index " ++ toString i ++ ": " ++ e))
    | .ok res => execRules f (i + 1) rest (applyRuleResult ctx rule res)

/-- The end index `min(startIndex + count, len(rules))` of `ExecuteN`. -/
def endIndex (eng : FeeEngine) (count : Int) : Nat :=
  min (eng.ctx.lastExecutedRule + count.toNat) eng.rules.length

/-- The rules `ExecuteN` will run: queue indices `[cursor, endIndex)`. -/
def ruleWindow (eng : FeeEngine) (count : Int) : List String :=
  (eng.rules.drop eng.ctx.lastExecutedRule).take
    (endIndex eng count - eng.ctx.lastExecutedRule)

/-- `ExecuteN` (lines 97-163 of `src/fee_engine.go`).  Returns the engine
after the call (the Go method mutates its receiver) together with the
result or error.  A non-positive count is rejected; a cursor already at or
past the queue length returns a zero-processed snapshot; otherwise the
window of rules is executed, and only on full success is the cursor set to
the end index. -/
def ExecuteN (f : EvalRule) (eng : FeeEngine) (count : Int) :
    FeeEngine × Except String ExecuteResult :=
  if count ≤ 0 then (eng, .error "count must be positive")
  else
    let start := eng.ctx.lastExecutedRule
    if eng.rules.length ≤ start then (eng, .ok (buildExecuteResult eng.ctx 0))
    else
      match execRules f start (ruleWindow eng count) eng.ctx with
      | (ctx1, some e) => ({ eng with ctx := ctx1 }, .error e)
      | (ctx1, none) =>
        let ctx2 := { ctx1 with lastExecutedRule := endIndex eng count }
        ({ eng with ctx := ctx2 },
         .ok (buildExecuteResult ctx2 (endIndex eng count - start)))

/-- `Execute` (lines 91-94): run all remaining rules by delegating the
computed remaining count to `ExecuteN`. -/
def Execute (f : EvalRule) (eng : FeeEngine) :
    FeeEngine × Except String ExecuteResult :=
  ExecuteN f eng ((eng.rules.length : Int) - (eng.ctx.lastExecutedRule : Int))

/-- `New` (lines 63-77 of `src/fee_engine.go`) with a caller-supplied
context: empty rule queue.  The constructor-time variable snapshot
`initialVars` feeds `Reset` (see there). -/
def New (ctx : Context) : FeeEngine := ⟨ctx, [], ctx.vars⟩

/-- `AddRule` (lines 85-88): append rule texts to the queue. -/
def AddRule (eng : FeeEngine) (rs : List String) : FeeEngine :=
  { eng with rules := eng.rules ++ rs }

/-- `EnableLog` (lines 79-82). -/
def EnableLog (eng : FeeEngine) : FeeEngine :=
  { eng with ctx := { eng.ctx with enableLog := true } }

/-- Engine-level variable write, via `Context.SetVar` (lines 34-38). -/
def SetVarE (eng : FeeEngine) (k : String) (v : GoValue) : FeeEngine :=
  { eng with ctx := { eng.ctx with vars := setVar eng.ctx.vars k v } }

/-- Modelled from the spec: the repository's `Reset` method is exercised by
its tests and demos but its definition is not under `src/` (only callers
are).  Spec §4.4: "`reset()`: restores the Variable Environment to its
originally-constructed snapshot, clears effects and logs, sets cursor to 0;
the Rule Queue itself is preserved unchanged", the snapshot being "captured
once, at Engine construction, not at time of reset" (§3).  The snapshot is
the `initialVars` field captured by `New`. -/
def Reset (eng : FeeEngine) : FeeEngine :=
  { eng with ctx := ⟨eng.initialVars, [], [], eng.ctx.enableLog, 0⟩ }

/-! ## Claims about coercion, emission and preprocessing -/

/-- C5: the claim states that numeric coercion loses no precision for
integer input of any width.  Evaluating `toDecimal` at the failing input
`uint64(9223372036854775808)` (that is `2 ^ 63`): the source converts via
`int64(val)` — despite its own comment "uint64 might overflow int64,
convert via string to be safe" — so the value wraps to `-2 ^ 63` instead
of the exact `2 ^ 63`. -/
theorem toDecimal_uint64_wraps :
    toDecimal (.vUint64 9223372036854775808) = -9223372036854775808 ∧
    toDecimal (.vUint64 9223372036854775808) ≠ ((9223372036854775808 : Nat) : ℚ) := by
  constructor <;> decide

/-- C6 counterexample: the claim states `emit`/`$` accepts every coercible
scalar kind and uses its canonical decimal coercion as the amount.  At the
concrete input `int32(5)` the constructor returns amount `0` while the
canonical coercion of `int32(5)` is `5`. -/
theorem newFeeItem_int32_cex :
    newFeeItem (.vInt32 5) "USD" = ⟨0, "USD"⟩ ∧
    toDecimal (.vInt32 5) = 5 ∧ ((0 : ℚ) = 5 → False) := by
  refine ⟨rfl, by decide, by decide⟩

/-- C6 (amended): `emit`/`$` produces exactly one `FeeItem` whose currency
is the given currency string; the amount is the canonical decimal coercion
of the amount argument for the kinds its type switch handles (decimal,
float64, int, int64, string), and decimal zero for every other kind
(float32, the narrower signed widths, and all unsigned widths fall to the
default branch). -/
theorem newFeeItem_spec (v : GoValue) (c : String) :
    (newFeeItem v c).currency = c ∧
    (newFeeItem v c).amount = (if newFeeItemHandles v then toDecimal v else 0) := by
  cases v <;> simp [newFeeItem, newFeeItemHandles, toDecimal]

/-- C3: the claim states the assignment rewrite fires only on a statement
that starts with a bare identifier followed by a single `=` not part of a
longer operator, and never fires mid-expression.  Evaluating the
preprocessor at the failing inputs: the comparison statement `a == b` is
rewritten to the (ill-formed) assignment `Set("a", = b)`, and in
`2 + x = 3` the rewrite fires mid-expression, silently dropping the
leading `2 + `.  (The spec's ternary example contains no `=` and is indeed
left unchanged.) -/
theorem preprocess_misfires :
    preprocessExpression "a == b" = "Set(\"a\", = b)" ∧
    preprocessExpression "2 + x = 3" = "Set(\"x\", 3)" ∧
    preprocessExpression "coupon > 0 ? $(-coupon, coupon_currency) : nil"
      = "coupon > 0 ? $(-coupon, coupon_currency) : nil" ∧
    preprocessExpression "value = value * 2" = "Set(\"value\", value * 2)" := by
  refine ⟨by decide, by decide, by decide, by decide⟩

/-! ## Claim about aggregation (`summarizeFeeItems`) -/

/-- The running per-currency map built by `summarizeFeeItems`'s single
pass, started from an arbitrary map `m`, ends at `m c` plus the exact sum
of the amounts of the items bearing currency `c`. -/
theorem summarizeFold_eq (l : List FeeItem) (m : String → ℚ) (c : String) :
    l.foldl
        (fun m item => fun c => if c = item.currency then m c + item.amount else m c)
        m c
      = m c + ((l.filter (fun i => i.currency = c)).map FeeItem.amount).sum := by
  induction l generalizing m with
  | nil => simp
  | cons a l ih =>
    simp only [List.foldl_cons, List.filter_cons]
    rw [ih]
    by_cases h : a.currency = c
    · simp [h, eq_comm]
      ring
    · have h' : ¬c = a.currency := fun hc => h hc.symm
      simp [h, h']

/-- The per-currency total of `summarizeFeeItems`, as a single lemma usable
for both halves of the aggregation claim. -/
theorem summarizeFeeItems_eq_sum (l : List FeeItem) (c : String) :
    summarizeFeeItems l c
      = ((l.filter (fun i => i.currency = c)).map FeeItem.amount).sum := by
  unfold summarizeFeeItems
  rw [summarizeFold_eq]
  simp

/-- C8: the aggregator's total for each currency code (matched by exact,
case-sensitive string equality) is the exact decimal sum of the amounts of
the effects bearing that currency — the whole computation is on canonical
decimals, with no floating-point step — and any two effect lists that are
permutations of each other have identical per-currency totals. -/
theorem summarize_exact_and_permutation (l l' : List FeeItem) (h : l.Perm l') :
    (∀ c, summarizeFeeItems l c
        = ((l.filter (fun i => i.currency = c)).map FeeItem.amount).sum) ∧
    (∀ c, summarizeFeeItems l c = summarizeFeeItems l' c) := by
  refine ⟨fun c => summarizeFeeItems_eq_sum l c, fun c => ?_⟩
  rw [summarizeFeeItems_eq_sum l c, summarizeFeeItems_eq_sum l' c]
  exact ((h.filter _).map FeeItem.amount).sum_eq

/-- Witness for C8 at a concrete permutation pair. -/
theorem summarize_exact_and_permutation_witness :
    (([⟨10, "USD"⟩, ⟨5, "EUR"⟩, ⟨1, "USD"⟩] : List FeeItem)).Perm
        [⟨5, "EUR"⟩, ⟨1, "USD"⟩, ⟨10, "USD"⟩] ∧
    ((∀ c, summarizeFeeItems [⟨10, "USD"⟩, ⟨5, "EUR"⟩, ⟨1, "USD"⟩] c
        = ((([⟨10, "USD"⟩, ⟨5, "EUR"⟩, ⟨1, "USD"⟩] : List FeeItem).filter
              (fun i => i.currency = c)).map FeeItem.amount).sum) ∧
     (∀ c, summarizeFeeItems [⟨10, "USD"⟩, ⟨5, "EUR"⟩, ⟨1, "USD"⟩] c
        = summarizeFeeItems [⟨5, "EUR"⟩, ⟨1, "USD"⟩, ⟨10, "USD"⟩] c)) :=
  ⟨by decide, summarize_exact_and_permutation _ _ (by decide)⟩

/-! ## Claims about `ExecuteN` / `Execute` argument validation -/

/-- A shared trivial oracle for concrete witnesses: every expression
evaluates to `nil` with no state change. -/
def nilOracle : RunOracle := fun _ st => .ok (.vNil, st)

/-- C4: `run(count)` with `count ≤ 0` fails with the invalid-argument
error; `runAll()` (`Execute`) against an empty or fully-executed queue
computes a remaining count `≤ 0` and fails with that same error; and
`run(count)` with a positive count when the cursor already equals the
queue length succeeds with a snapshot reporting `processed = 0` and the
accumulated effects, per-currency summary and logs unchanged, leaving the
engine untouched. -/
theorem executeN_count_validation (runE : RunOracle) (eng : FeeEngine) (count : Int) :
    (count ≤ 0 →
      ExecuteN (engineEval runE) eng count = (eng, .error "count must be positive")) ∧
    (eng.rules.length ≤ eng.ctx.lastExecutedRule →
      Execute (engineEval runE) eng = (eng, .error "count must be positive")) ∧
    (0 < count → eng.ctx.lastExecutedRule = eng.rules.length →
      ExecuteN (engineEval runE) eng count
        = (eng, .ok ⟨0, eng.ctx.feeItems, summarizeFeeItems eng.ctx.feeItems,
                     eng.ctx.logs⟩)) := by
  refine ⟨fun h => ?_, fun h => ?_, fun hc he => ?_⟩
  · unfold ExecuteN
    simp [h]
  · unfold Execute ExecuteN
    have hle : (eng.rules.length : Int) - (eng.ctx.lastExecutedRule : Int) ≤ 0 := by
      omega
    simp [hle]
  · unfold ExecuteN
    have h1 : ¬count ≤ 0 := by omega
    have h2 : eng.rules.length ≤ eng.ctx.lastExecutedRule := le_of_eq he.symm
    simp [h1, h2, buildExecuteResult]

/-- Concrete engine for the C4 witness: one rule, cursor already at the
queue length. -/
def engC4 : FeeEngine := ⟨⟨[], [], [], false, 1⟩, ["r"], []⟩

/-- Witness for C4: all three branches at concrete inputs. -/
theorem executeN_count_validation_witness :
    ((-1 : Int) ≤ 0 ∧
      ExecuteN (engineEval nilOracle) engC4 (-1) = (engC4, .error "count must be positive")) ∧
    (engC4.rules.length ≤ engC4.ctx.lastExecutedRule ∧
      Execute (engineEval nilOracle) engC4 = (engC4, .error "count must be positive")) ∧
    ((0 : Int) < 5 ∧ engC4.ctx.lastExecutedRule = engC4.rules.length ∧
      ExecuteN (engineEval nilOracle) engC4 5
        = (engC4, .ok ⟨0, engC4.ctx.feeItems, summarizeFeeItems engC4.ctx.feeItems,
                       engC4.ctx.logs⟩)) :=
  ⟨⟨by decide, (executeN_count_validation nilOracle engC4 (-1)).1 (by decide)⟩,
   ⟨by decide, (executeN_count_validation nilOracle engC4 0).2.1 (by decide)⟩,
   ⟨by decide, by decide,
    (executeN_count_validation nilOracle engC4 5).2.2 (by decide) (by decide)⟩⟩

/-! ## Claim about the empty-string rule (C10) -/

/-- Decomposing a list at a known index. -/
theorem drop_cons_of_get? {α : Type _} {l : List α} {n : Nat} {a : α}
    (h : l.get? n = some a) : l.drop n = a :: l.drop (n + 1) := by
  obtain ⟨hn, hg⟩ := List.get?_eq_some.mp h
  rw [List.drop_eq_getElem_cons hn]
  simp only [List.get_eq_getElem] at hg
  rw [hg]

/-- C10: when the rule at the cursor is the empty string, executing it
succeeds: `executeExpression` returns the sentinel no-op result before
consulting the evaluator, so the rule is counted as processed, the cursor
advances past it, the variables and effect list are untouched, and — when
logging is enabled — a log entry with the empty rule text and no per-rule
effects is still appended. -/
theorem executeN_empty_rule (runE : RunOracle) (eng : FeeEngine)
    (h : eng.rules.get? eng.ctx.lastExecutedRule = some "") :
    ExecuteN (engineEval runE) eng 1
      = ({ eng with ctx :=
            ⟨eng.ctx.vars, eng.ctx.feeItems,
             eng.ctx.logs ++
               (if eng.ctx.enableLog then
                 [⟨"", eng.ctx.vars, []⟩] else []),
             eng.ctx.enableLog, eng.ctx.lastExecutedRule + 1⟩ },
         .ok ⟨1, eng.ctx.feeItems, summarizeFeeItems eng.ctx.feeItems,
              eng.ctx.logs ++
                (if eng.ctx.enableLog then
                  [⟨"", eng.ctx.vars, []⟩] else [])⟩) := by
  obtain ⟨hn, _⟩ := List.get?_eq_some.mp h
  have hdrop := drop_cons_of_get? h
  have hend : endIndex eng 1 = eng.ctx.lastExecutedRule + 1 := by
    unfold endIndex
    omega
  have hwin : ruleWindow eng 1 = [""] := by
    unfold ruleWindow
    rw [hend, hdrop]
    simp
  unfold ExecuteN
  rw [if_neg (by decide : ¬(1 : Int) ≤ 0), if_neg (Nat.not_le.mpr hn), hwin, hend]
  have hrule : engineEval runE "" eng.ctx.vars = .ok none := rfl
  simp only [execRules, hrule]
  have happ : applyRuleResult eng.ctx "" none
      = ⟨eng.ctx.vars, eng.ctx.feeItems,
         eng.ctx.logs ++
           (if eng.ctx.enableLog then [⟨"", eng.ctx.vars, []⟩] else []),
         eng.ctx.enableLog, eng.ctx.lastExecutedRule⟩ := by
    unfold applyRuleResult
    cases hE : eng.ctx.enableLog <;> simp [hE]
  rw [happ]
  simp [buildExecuteResult]

/-- Concrete engine for the C10 witness: one queued empty rule, logging
enabled. -/
def engC10 : FeeEngine := ⟨⟨[("x", .vInt 1)], [], [], true, 0⟩, [""], []⟩

/-- Witness for C10 at a concrete engine. -/
theorem executeN_empty_rule_witness :
    engC10.rules.get? engC10.ctx.lastExecutedRule = some "" ∧
    ExecuteN (engineEval nilOracle) engC10 1
      = ({ engC10 with ctx :=
            ⟨engC10.ctx.vars, engC10.ctx.feeItems,
             engC10.ctx.logs ++
               (if engC10.ctx.enableLog then
                 [⟨"", engC10.ctx.vars, []⟩] else []),
             engC10.ctx.enableLog, engC10.ctx.lastExecutedRule + 1⟩ },
         .ok ⟨1, engC10.ctx.feeItems, summarizeFeeItems engC10.ctx.feeItems,
              engC10.ctx.logs ++
                (if engC10.ctx.enableLog then
                  [⟨"", engC10.ctx.vars, []⟩] else [])⟩) :=
  ⟨by decide, executeN_empty_rule nilOracle engC10 (by decide)⟩

/-! ## Claims about failure semantics and resumability of `ExecuteN` -/

/-- The merge step never touches the cursor field. -/
theorem applyRuleResult_lastExecutedRule (ctx : Context) (rule : String)
    (res : Option RuleResult) :
    (applyRuleResult ctx rule res).lastExecutedRule = ctx.lastExecutedRule := by
  unfold applyRuleResult
  rcases res with _ | ⟨fis, ups⟩
  · cases hE : ctx.enableLog <;> simp [hE]
  · rcases ups with _ | u <;> cases hE : ctx.enableLog <;> simp [hE]

/-- The merge step only reads the cursor field through nothing: setting the
cursor beforehand commutes with the merge. -/
theorem applyRuleResult_setCursor (ctx : Context) (rule : String)
    (res : Option RuleResult) (m : Nat) :
    applyRuleResult { ctx with lastExecutedRule := m } rule res
      = { applyRuleResult ctx rule res with lastExecutedRule := m } := by
  unfold applyRuleResult
  rcases res with _ | ⟨fis, ups⟩
  · cases hE : ctx.enableLog <;> simp [hE]
  · rcases ups with _ | u <;> cases hE : ctx.enableLog <;> simp [hE]

/-- The rule loop never touches the cursor field: on both the success and
the error path the context it returns carries the cursor it started with. -/
theorem execRules_lastExecutedRule (f : EvalRule) (i : Nat) (rs : List String)
    (ctx : Context) :
    (execRules f i rs ctx).1.lastExecutedRule = ctx.lastExecutedRule := by
  induction rs generalizing i ctx with
  | nil => rfl
  | cons r rest ih =>
    unfold execRules
    cases hf : f r ctx.vars with
    | error e => rfl
    | ok res =>
      simp only
      rw [ih, applyRuleResult_lastExecutedRule]

/-- The rule loop is oblivious to the cursor field. -/
theorem execRules_setCursor (f : EvalRule) (i : Nat) (rs : List String)
    (ctx : Context) (m : Nat) :
    execRules f i rs { ctx with lastExecutedRule := m }
      = ({ (execRules f i rs ctx).1 with lastExecutedRule := m },
         (execRules f i rs ctx).2) := by
  induction rs generalizing i ctx with
  | nil => rfl
  | cons r rest ih =>
    unfold execRules
    cases hf : f r ctx.vars with
    | error e => simp [hf]
    | ok res =>
      simp only [hf]
      rw [applyRuleResult_setCursor, ih]

/-- Defining equation of `execRules` on a non-empty list, as a rewrite
rule. -/
theorem execRules_cons (f : EvalRule) (i : Nat) (x : String)
    (rest : List String) (ctx : Context) :
    execRules f i (x :: rest) ctx
      = match f x ctx.vars with
        | .error e =>
          (ctx, some ("error executing rule at index " ++ toString i ++ ": " ++ e))
        | .ok res => execRules f (i + 1) rest (applyRuleResult ctx x res) := rfl

/-- Splitting the rule loop at a successful prefix: if the loop completes
the rules `xs` without error, running `xs ++ ys` continues with `ys` from
the reached context, with the absolute index advanced by `xs.length`. -/
theorem execRules_append_ok (f : EvalRule) (i : Nat) (xs ys : List String)
    (ctx ctx' : Context) (h : execRules f i xs ctx = (ctx', none)) :
    execRules f i (xs ++ ys) ctx = execRules f (i + xs.length) ys ctx' := by
  induction xs generalizing i ctx with
  | nil =>
    unfold execRules at h
    cases h
    simp
  | cons x xs ih =>
    rw [execRules_cons] at h
    cases hf : f x ctx.vars with
    | error e =>
      rw [hf] at h
      simp at h
    | ok res =>
      rw [hf] at h
      simp only at h
      rw [List.cons_append, execRules_cons, hf]
      show execRules f (i + 1) (xs ++ ys) (applyRuleResult ctx x res)
          = execRules f (i + (x :: xs).length) ys ctx'
      rw [ih _ _ h, List.length_cons]
      congr 1
      omega

/-- C1 (amended): when the rule at absolute queue index `cursor + k` is the
first to fail in a `run` call (the `k` window rules before it complete,
reaching context `ctxMid`), the call stops immediately and returns an
error identifying that index; the effects and variable mutations of the
completed rules remain committed in the shared context (the engine is left
with exactly `ctxMid`); and the cursor is not advanced at all — it stays at
the start cursor of the call, not at the failing index. -/
theorem executeN_failure_semantics (runE : RunOracle) (eng : FeeEngine) (count : Int)
    (k : Nat) (ctxMid : Context) (r e : String)
    (hc : 0 < count)
    (hstart : eng.ctx.lastExecutedRule < eng.rules.length)
    (hpre : execRules (engineEval runE) eng.ctx.lastExecutedRule
              ((ruleWindow eng count).take k) eng.ctx = (ctxMid, none))
    (hrule : (ruleWindow eng count).get? k = some r)
    (hfail : engineEval runE r ctxMid.vars = .error e) :
    ExecuteN (engineEval runE) eng count
      = ({ eng with ctx := ctxMid },
         .error ("error executing rule at index "
            ++ toString (eng.ctx.lastExecutedRule + k) ++ ": " ++ e)) ∧
    ctxMid.lastExecutedRule = eng.ctx.lastExecutedRule := by
  obtain ⟨hk, _⟩ := List.get?_eq_some.mp hrule
  have hsplit : ruleWindow eng count
      = (ruleWindow eng count).take k ++ (r :: (ruleWindow eng count).drop (k + 1)) := by
    conv_lhs => rw [← List.take_append_drop k (ruleWindow eng count)]
    rw [drop_cons_of_get? hrule]
  have htklen : ((ruleWindow eng count).take k).length = k := by
    rw [List.length_take]
    omega
  have hrun : execRules (engineEval runE) eng.ctx.lastExecutedRule
      (ruleWindow eng count) eng.ctx
      = (ctxMid, some ("error executing rule at index "
          ++ toString (eng.ctx.lastExecutedRule + k) ++ ": " ++ e)) := by
    rw [hsplit, execRules_append_ok _ _ _ _ _ _ hpre, htklen, execRules_cons, hfail]
  constructor
  · unfold ExecuteN
    rw [if_neg (by omega : ¬count ≤ 0), if_neg (Nat.not_le.mpr hstart), hrun]
  · have hcur := execRules_lastExecutedRule (engineEval runE)
      eng.ctx.lastExecutedRule ((ruleWindow eng count).take k) eng.ctx
    rw [hpre] at hcur
    exact hcur

/-- Error-message projection of a call's outcome. -/
def errMsgOf (x : Except String ExecuteResult) : Option String :=
  match x with
  | .error e => some e
  | .ok _ => none

/-- Oracle for the C1 concrete runs: the rule text `bad` faults, every
other rule emits one `USD 1` fee item. -/
def oracleC1 : RunOracle := fun s st =>
  if s = "bad" then .error "boom" else .ok (.vFeeItem ⟨1, "USD"⟩, st)

/-- Engine for the C1 concrete runs: two queued rules, the second faults. -/
def engC1 : FeeEngine := ⟨⟨[], [], [], false, 0⟩, ["ok", "bad"], []⟩

/-- The context reached after the first (successful) C1 rule. -/
def ctxMidC1 : Context := ⟨[], [⟨1, "USD"⟩], [], false, 0⟩

/-- C1 counterexample: in a concrete `run(2)` whose rule at index 1 faults,
the error names index 1 and the effect of rule 0 stays committed, but the
cursor ends at 0 — the start cursor — and not at the failing index 1 as the
claim states. -/
theorem executeN_cursor_cex :
    errMsgOf (ExecuteN (engineEval oracleC1) engC1 2).2
        = some "error executing rule at index 1: boom" ∧
    (ExecuteN (engineEval oracleC1) engC1 2).1.ctx.feeItems = [⟨1, "USD"⟩] ∧
    (ExecuteN (engineEval oracleC1) engC1 2).1.ctx.lastExecutedRule = 0 ∧
    ((ExecuteN (engineEval oracleC1) engC1 2).1.ctx.lastExecutedRule = 1 → False) := by
  exact ⟨by decide, by decide, by decide, by decide⟩

/-- Witness for the amended C1 theorem at the concrete faulting run. -/
theorem executeN_failure_semantics_witness :
    ((0 : Int) < 2 ∧
     engC1.ctx.lastExecutedRule < engC1.rules.length ∧
     execRules (engineEval oracleC1) engC1.ctx.lastExecutedRule
        ((ruleWindow engC1 2).take 1) engC1.ctx = (ctxMidC1, none) ∧
     (ruleWindow engC1 2).get? 1 = some "bad" ∧
     engineEval oracleC1 "bad" ctxMidC1.vars = .error "boom") ∧
    (ExecuteN (engineEval oracleC1) engC1 2
      = ({ engC1 with ctx := ctxMidC1 },
         .error ("error executing rule at index "
            ++ toString (engC1.ctx.lastExecutedRule + 1) ++ ": " ++ "boom")) ∧
     ctxMidC1.lastExecutedRule = engC1.ctx.lastExecutedRule) :=
  ⟨⟨by decide, by decide, rfl, by decide, rfl⟩,
   executeN_failure_semantics oracleC1 engC1 2 1 ctxMidC1 "bad" "boom"
     (by decide) (by decide) rfl (by decide) rfl⟩

/-- Resumability of the rule loop, for an arbitrary rule evaluator: a
successful `run(a)` followed by a successful `run(b)` reaches the same
engine state as a single `run(a+b)`. -/

theorem executeN_composition_general (f : EvalRule) (eng eng1 eng2 : FeeEngine)
    (a b : Nat) (r1 r2 : ExecuteResult)
    (ha : 0 < a) (hb : 0 < b)
    (hlen : eng.ctx.lastExecutedRule + a + b ≤ eng.rules.length)
    (h1 : ExecuteN f eng (a : Int) = (eng1, .ok r1))
    (h2 : ExecuteN f eng1 (b : Int) = (eng2, .ok r2)) :
    ExecuteN f eng ((a : Int) + (b : Int))
      = (eng2, .ok (buildExecuteResult eng2.ctx (a + b))) := by
  have hsl : eng.ctx.lastExecutedRule < eng.rules.length := by omega
  have hend1 : endIndex eng (a : Int) = eng.ctx.lastExecutedRule + a := by
    unfold endIndex
    omega
  have hwin1 : ruleWindow eng (a : Int)
      = (eng.rules.drop eng.ctx.lastExecutedRule).take a := by
    unfold ruleWindow
    rw [hend1]
    congr 1
    omega
  unfold ExecuteN at h1
  rw [if_neg (by omega : ¬(a : Int) ≤ 0), if_neg (Nat.not_le.mpr hsl)] at h1
  rcases hx1 : execRules f eng.ctx.lastExecutedRule (ruleWindow eng (a : Int)) eng.ctx
    with ⟨c1, o1⟩
  rw [hx1] at h1
  cases o1 with
  | some e => simp at h1
  | none =>
  simp only at h1
  obtain ⟨h1a, h1b⟩ := Prod.mk.injEq .. |>.mp h1
  have hE1 : eng1 = { eng with ctx :=
      { c1 with lastExecutedRule := eng.ctx.lastExecutedRule + a } } := by
    rw [← h1a, hend1]
  have hsl2 : eng.ctx.lastExecutedRule + a < eng.rules.length := by omega
  rw [hE1] at h2
  unfold ExecuteN at h2
  rw [if_neg (by omega : ¬(b : Int) ≤ 0)] at h2
  simp only at h2
  rw [if_neg (Nat.not_le.mpr hsl2)] at h2
  have hend2 : endIndex
      { eng with ctx := { c1 with lastExecutedRule := eng.ctx.lastExecutedRule + a } }
      (b : Int) = eng.ctx.lastExecutedRule + a + b := by
    unfold endIndex
    simp only
    omega
  have hwin2 : ruleWindow
      { eng with ctx := { c1 with lastExecutedRule := eng.ctx.lastExecutedRule + a } }
      (b : Int) = (eng.rules.drop (eng.ctx.lastExecutedRule + a)).take b := by
    unfold ruleWindow
    rw [hend2]
    simp only
    congr 1
    omega
  rw [hwin2, execRules_setCursor] at h2
  rcases hx2 : execRules f (eng.ctx.lastExecutedRule + a)
      ((eng.rules.drop (eng.ctx.lastExecutedRule + a)).take b) c1 with ⟨c2, o2⟩
  rw [hx2] at h2
  simp only at h2
  cases o2 with
  | some e => simp at h2
  | none =>
  rw [hend2] at h2
  obtain ⟨h2a, h2b⟩ := Prod.mk.injEq .. |>.mp h2
  simp only at h2a
  have hendT : endIndex eng ((a : Int) + (b : Int)) = eng.ctx.lastExecutedRule + a + b := by
    unfold endIndex
    omega
  have hwa_len : (ruleWindow eng (a : Int)).length = a := by
    rw [hwin1, List.length_take, List.length_drop]
    omega
  have hwinT : ruleWindow eng ((a : Int) + (b : Int))
      = ruleWindow eng (a : Int)
        ++ (eng.rules.drop (eng.ctx.lastExecutedRule + a)).take b := by
    rw [hwin1]
    unfold ruleWindow
    rw [hendT]
    rw [show eng.ctx.lastExecutedRule + a + b - eng.ctx.lastExecutedRule = a + b by omega]
    rw [List.take_add]
    congr 1
    rw [List.drop_drop]
  unfold ExecuteN
  rw [if_neg (by omega : ¬(a : Int) + (b : Int) ≤ 0), if_neg (Nat.not_le.mpr hsl), hwinT,
    execRules_append_ok f eng.ctx.lastExecutedRule (ruleWindow eng (a : Int))
      ((eng.rules.drop (eng.ctx.lastExecutedRule + a)).take b) eng.ctx c1 hx1,
    hwa_len, hx2, hendT]
  rw [show eng.ctx.lastExecutedRule + a + b - eng.ctx.lastExecutedRule = a + b by omega]
  rw [← h2a]

/-- C7: for every queued rule sequence in which every executed rule
evaluates successfully (expressed by the success of both calls) and all
positive `a`, `b` with `cursor + a + b` within the queue length, `run(a)`
followed by `run(b)` leaves the engine — variables, effect list, log list
and cursor — in exactly the state a single `run(a+b)` call produces, which
reports `a + b` processed rules. -/
theorem executeN_composition (runE : RunOracle) (eng eng1 eng2 : FeeEngine)
    (a b : Nat) (r1 r2 : ExecuteResult)
    (ha : 0 < a) (hb : 0 < b)
    (hlen : eng.ctx.lastExecutedRule + a + b ≤ eng.rules.length)
    (h1 : ExecuteN (engineEval runE) eng (a : Int) = (eng1, .ok r1))
    (h2 : ExecuteN (engineEval runE) eng1 (b : Int) = (eng2, .ok r2)) :
    ExecuteN (engineEval runE) eng ((a : Int) + (b : Int))
      = (eng2, .ok (buildExecuteResult eng2.ctx (a + b))) :=
  executeN_composition_general (engineEval runE) eng eng1 eng2 a b r1 r2 ha hb hlen h1 h2

/-- Engines for the C7 witness: three queued no-op rules, before any run,
after `run(1)`, and after the full run. -/
def engC7 : FeeEngine := ⟨⟨[], [], [], false, 0⟩, ["r1", "r2", "r3"], []⟩

def engC7after1 : FeeEngine := ⟨⟨[], [], [], false, 1⟩, ["r1", "r2", "r3"], []⟩

def engC7after3 : FeeEngine := ⟨⟨[], [], [], false, 3⟩, ["r1", "r2", "r3"], []⟩

/-- Witness for C7 at a concrete three-rule engine with `a = 1`, `b = 2`. -/
theorem executeN_composition_witness :
    (0 < 1 ∧ 0 < 2 ∧
     engC7.ctx.lastExecutedRule + 1 + 2 ≤ engC7.rules.length ∧
     ExecuteN (engineEval nilOracle) engC7 ((1 : Nat) : Int)
        = (engC7after1, .ok (buildExecuteResult engC7after1.ctx 1)) ∧
     ExecuteN (engineEval nilOracle) engC7after1 ((2 : Nat) : Int)
        = (engC7after3, .ok (buildExecuteResult engC7after3.ctx 2))) ∧
    ExecuteN (engineEval nilOracle) engC7 (((1 : Nat) : Int) + ((2 : Nat) : Int))
      = (engC7after3, .ok (buildExecuteResult engC7after3.ctx (1 + 2))) :=
  ⟨⟨by decide, by decide, by decide, rfl, rfl⟩,
   executeN_composition nilOracle engC7 engC7after1 engC7after3 1 2
     (buildExecuteResult engC7after1.ctx 1) (buildExecuteResult engC7after3.ctx 2)
     (by decide) (by decide) (by decide) rfl rfl⟩

/-! ## Claim about `Reset` (C2) -/

/-- `ExecuteN` only ever mutates the engine's context: the rule queue and
the construction-time variable snapshot survive every call, successful or
not. -/
theorem executeN_preserves_shape (f : EvalRule) (eng : FeeEngine) (count : Int) :
    (ExecuteN f eng count).1.rules = eng.rules ∧
    (ExecuteN f eng count).1.initialVars = eng.initialVars := by
  unfold ExecuteN
  by_cases h1 : count ≤ 0
  · rw [if_pos h1]
    exact ⟨rfl, rfl⟩
  · rw [if_neg h1]
    by_cases h2 : eng.rules.length ≤ eng.ctx.lastExecutedRule
    · rw [if_pos h2]
      exact ⟨rfl, rfl⟩
    · rw [if_neg h2]
      rcases hx : execRules f eng.ctx.lastExecutedRule (ruleWindow eng count) eng.ctx
        with ⟨c, o⟩
      cases o <;> exact ⟨rfl, rfl⟩

/-- Engine states reachable from a given engine through the public
mutating operations: executing rules (any evaluator, any count, fault or
not), queuing further rules, enabling logging, and writing a variable. -/
inductive Reachable : FeeEngine → FeeEngine → Prop
  | refl (e : FeeEngine) : Reachable e e
  | exec {e e' : FeeEngine} (f : EvalRule) (count : Int) (h : Reachable e e') :
      Reachable e (ExecuteN f e' count).1
  | add {e e' : FeeEngine} (rs : List String) (h : Reachable e e') :
      Reachable e (AddRule e' rs)
  | enable {e e' : FeeEngine} (h : Reachable e e') : Reachable e (EnableLog e')
  | setv {e e' : FeeEngine} (k : String) (v : GoValue) (h : Reachable e e') :
      Reachable e (SetVarE e' k v)

/-- The construction-time variable snapshot is invariant under every
engine operation. -/
theorem reachable_initialVars {e e' : FeeEngine} (h : Reachable e e') :
    e'.initialVars = e.initialVars := by
  induction h with
  | refl => rfl
  | exec f count h ih => rw [(executeN_preserves_shape f _ count).2, ih]
  | add rs h ih => exact ih
  | enable h ih => exact ih
  | setv k v h ih => exact ih

/-- C2: for every engine built by `New ctx`, after any number of executed
rules (indeed after any sequence of engine operations), `Reset` restores
the variable environment to exactly the snapshot captured once at
construction — `ctx.vars`, not the state at any intermediate checkpoint —
clears the effect list and the log list, sets the cursor to 0, and leaves
the rule queue unchanged. -/
theorem reset_restores_construction_state (ctx : Context) (eng' : FeeEngine)
    (h : Reachable (New ctx) eng') :
    (Reset eng').ctx.vars = ctx.vars ∧
    (Reset eng').ctx.feeItems = [] ∧
    (Reset eng').ctx.logs = [] ∧
    (Reset eng').ctx.lastExecutedRule = 0 ∧
    (Reset eng').rules = eng'.rules := by
  refine ⟨?_, rfl, rfl, rfl, rfl⟩
  show eng'.initialVars = ctx.vars
  rw [reachable_initialVars h]
  rfl

/-- Context and engine for the C2 witness: one variable, one queued rule,
one executed rule before the reset. -/
def ctxC2 : Context := ⟨[("amount", .vInt 5)], [], [], false, 0⟩

def engC2 : FeeEngine := (ExecuteN (engineEval nilOracle) (AddRule (New ctxC2) ["r1"]) 1).1

/-- Witness for C2 at a concrete engine that has executed one rule. -/
theorem reset_restores_construction_state_witness :
    Reachable (New ctxC2) engC2 ∧
    ((Reset engC2).ctx.vars = ctxC2.vars ∧
     (Reset engC2).ctx.feeItems = [] ∧
     (Reset engC2).ctx.logs = [] ∧
     (Reset engC2).ctx.lastExecutedRule = 0 ∧
     (Reset engC2).rules = engC2.rules) :=
  ⟨Reachable.exec (engineEval nilOracle) 1 (Reachable.add ["r1"] (Reachable.refl _)),
   reset_restores_construction_state ctxC2 engC2
     (Reachable.exec (engineEval nilOracle) 1 (Reachable.add ["r1"] (Reachable.refl _)))⟩

/-- Following the spec's words (4.3): each string of the returned ordered
sequence is evaluated immediately as a further expression against the same
(threaded) environment — not queued, not re-preprocessed — and the
monetary effects each produces are collected in sequence order.  Written
from the spec for comparison with the source-derived pipeline. -/
def collectStringEffects (runE : RunOracle) :
    List String → EvalState → Except String (List FeeItem × EvalState)
  | [], st => .ok ([], st)
  | s :: rest, st =>
    match executeSingleExpression runE s st with
    | .error e => .error e
    | .ok (v, st1) =>
      match collectStringEffects runE rest st1 with
      | .error e => .error e
      | .ok (fis, st2) => .ok (extractFeeItems v ++ fis, st2)

/-- Effect-list projection of a rule's outcome (the sentinel `nil` result
carries no effects). -/
def ruleEffectsOf (x : Except String (Option RuleResult)) :
    Except String (List FeeItem) :=
  match x with
  | .error e => .error e
  | .ok none => .ok []
  | .ok (some r) => .ok r.feeItems

/-- Output values that are neither monetary effects nor sequences. -/
def scalarOutput : GoValue → Bool
  | .vFeeItem _ => false
  | .vArr _ => false
  | .vStrArr _ => false
  | _ => true

theorem ruleEffectsOf_finishRule (fis : List FeeItem) (ups : VarMap) :
    ruleEffectsOf (.ok (finishRule fis ups)) = .ok fis := by
  unfold finishRule ruleEffectsOf
  by_cases h1 : fis.isEmpty
  · by_cases h2 : ups.isEmpty
    · simp [h1, h2, List.isEmpty_iff.mp h1]
    · simp [h1, h2]
  · simp [h1]

theorem subExprLoop_eq_collect (runE : RunOracle) (acc : List FeeItem)
    (ss : List String) (st : EvalState) :
    subExprLoop runE acc ss st
      = (collectStringEffects runE ss st).map (fun p => (acc ++ p.1, p.2)) := by
  induction ss generalizing acc st with
  | nil => simp [subExprLoop, collectStringEffects, Except.map]
  | cons s rest ih =>
    unfold subExprLoop collectStringEffects
    cases hx : executeSingleExpression runE s st with
    | error e => simp [Except.map]
    | ok pr =>
      obtain ⟨v, st1⟩ := pr
      simp only
      rw [ih]
      cases hy : collectStringEffects runE rest st1 with
      | error e => simp [Except.map]
      | ok pr2 => simp [Except.map, List.append_assoc]

/-- C9: for a rule whose (single-statement) result expression evaluates to
`output` with evaluation state `st1`: an ordered sequence consisting
entirely of strings (a `[]string`, or a non-empty `[]interface{}` of
strings) has each string evaluated immediately against the same threaded
environment — not queued, not re-preprocessed — with the monetary effects
collected in sequence order (the spec-written `collectStringEffects`); an
ordered sequence containing a non-string element has exactly its Monetary
Effect elements recorded in order; a single Monetary Effect is recorded;
and a null or any other scalar return records no effect. -/
theorem executeExpression_result_protocol (runE : RunOracle) (exprStr : String)
    (vars : VarMap) (output : GoValue) (st1 : EvalState)
    (hne : exprStr ≠ "")
    (hsingle : (splitOnSep [';', ' '] (preprocessExpression exprStr).toList).length ≤ 1)
    (hrun : executeSingleExpression runE (preprocessExpression exprStr) ⟨vars, []⟩
       = .ok (output, st1)) :
    (∀ ss, output = .vStrArr ss → ss ≠ [] →
       ruleEffectsOf (executeExpression runE exprStr vars)
         = Except.map Prod.fst (collectStringEffects runE ss st1)) ∧
    (∀ xs, output = .vArr xs → xs ≠ [] → (∀ x ∈ xs, (stringOf x).isSome) →
       ruleEffectsOf (executeExpression runE exprStr vars)
         = Except.map Prod.fst (collectStringEffects runE (xs.filterMap stringOf) st1)) ∧
    (∀ xs x, output = .vArr xs → x ∈ xs → stringOf x = none →
       ruleEffectsOf (executeExpression runE exprStr vars)
         = .ok (xs.filterMap feeItemOf)) ∧
    (∀ fi, output = .vFeeItem fi →
       ruleEffectsOf (executeExpression runE exprStr vars) = .ok [fi]) ∧
    (scalarOutput output = true →
       ruleEffectsOf (executeExpression runE exprStr vars) = .ok []) := by
  have hmain : executeExpression runE exprStr vars
      = match processOutput runE output st1 with
        | .error e => .error e
        | .ok (fis, st3) => .ok (finishRule fis st3.updates) := by
    unfold executeExpression
    rw [if_neg hne]
    have hlen : ¬ (((splitOnSep [';', ' '] (preprocessExpression exprStr).toList).map
        String.mk).length > 1) := by
      rw [List.length_map]
      omega
    simp only [if_neg hlen, hrun]
  have hfin : ∀ fis st3, processOutput runE output st1 = .ok (fis, st3) →
      ruleEffectsOf (executeExpression runE exprStr vars) = .ok fis := by
    intro fis st3 hp
    rw [hmain, hp]
    exact ruleEffectsOf_finishRule fis st3.updates
  have herr : ∀ e, processOutput runE output st1 = .error e →
      ruleEffectsOf (executeExpression runE exprStr vars) = .error e := by
    intro e hp
    rw [hmain, hp]
    rfl
  refine ⟨?_, ?_, ?_, ?_, ?_⟩
  · intro ss hout hss
    subst hout
    have hgt : (extractExpressionStrings (.vStrArr ss)).length > 0 := by
      cases ss with
      | nil => cases hss rfl
      | cons a l => simp [extractExpressionStrings]
    have hpo : processOutput runE (.vStrArr ss) st1 = subExprLoop runE [] ss st1 := by
      unfold processOutput
      simp only [if_pos hgt]
      rfl
    rw [subExprLoop_eq_collect] at hpo
    cases hc : collectStringEffects runE ss st1 with
    | error e =>
      rw [hc] at hpo
      simp only [Except.map] at hpo
      simp only [Except.map]
      exact herr e hpo
    | ok pr =>
      obtain ⟨fis, st2⟩ := pr
      rw [hc] at hpo
      simp only [Except.map, List.nil_append] at hpo
      simp only [Except.map]
      exact hfin _ _ hpo
  · intro xs hout hxs hall
    subst hout
    have hex : extractExpressionStrings (.vArr xs) = xs.filterMap stringOf := by
      have hex0 : extractExpressionStrings (.vArr xs)
          = if xs.length > 0 then
              (if xs.all (fun y => (stringOf y).isSome) then xs.filterMap stringOf else [])
            else [] := rfl
      have hl : xs.length > 0 := by
        cases xs with
        | nil => cases hxs rfl
        | cons a l => simp
      rw [hex0, if_pos hl, if_pos (List.all_eq_true.mpr hall)]
    have hflen : (extractExpressionStrings (.vArr xs)).length > 0 := by
      rw [hex]
      cases xs with
      | nil => cases hxs rfl
      | cons a l =>
        have ha := hall a (by simp)
        obtain ⟨s0, hs0⟩ := Option.isSome_iff_exists.mp ha
        simp [List.filterMap_cons, hs0]
    have hpo : processOutput runE (.vArr xs) st1
        = subExprLoop runE [] (xs.filterMap stringOf) st1 := by
      unfold processOutput
      simp only [if_pos hflen]
      simp only [hex]
    rw [subExprLoop_eq_collect] at hpo
    cases hc : collectStringEffects runE (xs.filterMap stringOf) st1 with
    | error e =>
      rw [hc] at hpo
      simp only [Except.map] at hpo
      simp only [Except.map]
      exact herr e hpo
    | ok pr =>
      obtain ⟨fis, st2⟩ := pr
      rw [hc] at hpo
      simp only [Except.map, List.nil_append] at hpo
      simp only [Except.map]
      exact hfin _ _ hpo
  · intro xs x hout hmem hnone
    subst hout
    have hex : extractExpressionStrings (.vArr xs) = [] := by
      have hex0 : extractExpressionStrings (.vArr xs)
          = if xs.length > 0 then
              (if xs.all (fun y => (stringOf y).isSome) then xs.filterMap stringOf else [])
            else [] := rfl
      rw [hex0]
      by_cases hl : xs.length > 0
      · rw [if_pos hl]
        have hfalse : xs.all (fun y => (stringOf y).isSome) = false := by
          rw [List.all_eq_false]
          exact ⟨x, hmem, by simp [hnone]⟩
        rw [hfalse]
        simp
      · rw [if_neg hl]
    have hpo : processOutput runE (.vArr xs) st1
        = .ok (extractFeeItems (.vArr xs), st1) := by
      unfold processOutput
      simp only [hex]
      simp
    exact hfin _ _ hpo
  · intro fi hout
    subst hout
    exact hfin _ _ rfl
  · intro hs
    cases output <;> simp only [scalarOutput] at hs <;>
      first
      | exact Bool.noConfusion hs
      | exact hfin [] st1 rfl

/-- Oracle for the C9 witness: the rule `fanout` returns a string array
whose elements each emit one fee item. -/
def oracleC9 : RunOracle := fun s st =>
  if s = "fanout" then .ok (.vStrArr ["e1", "e2"], st)
  else if s = "e1" then .ok (.vFeeItem ⟨1, "USD"⟩, st)
  else if s = "e2" then .ok (.vFeeItem ⟨2, "EUR"⟩, st)
  else .ok (.vNil, st)

/-- Witness for C9: a concrete rule returning a string array. -/
theorem executeExpression_result_protocol_witness :
    ("fanout" ≠ "" ∧
     (splitOnSep [';', ' '] (preprocessExpression "fanout").toList).length ≤ 1 ∧
     executeSingleExpression oracleC9 (preprocessExpression "fanout") ⟨[], []⟩
       = .ok (.vStrArr ["e1", "e2"], ⟨[], []⟩)) ∧
    ruleEffectsOf (executeExpression oracleC9 "fanout" [])
      = Except.map Prod.fst (collectStringEffects oracleC9 ["e1", "e2"] ⟨[], []⟩) :=
  ⟨⟨by decide, by decide, rfl⟩,
   (executeExpression_result_protocol oracleC9 "fanout" [] (.vStrArr ["e1", "e2"]) ⟨[], []⟩
      (by decide) (by decide) rfl).1 ["e1", "e2"] rfl (by decide)⟩
